import Mathlib

/-!
Verification of the markdown generation engine of src/markdown/mod.rs.

Rust strings and byte slices are modelled as `List Char`; the source code
only ever inspects ASCII bytes (newline, backslash, the reserved escape
set, backtick), for which the character-level model coincides with the
byte-level one.  Panics (`assert!`, `panic!`) are modelled by `Option`:
`none` is a fatal error, `some out` is the emitted output.
-/

namespace MarkdownGen

/-- The backtick character, written via its code point. -/
def backtick : Char := Char.ofNat 96

/-- String escaping mode, from enum Escaping. -/
inductive Escaping where
  | Normal
  | InlineCode

/-- The reserved character set of Normal escaping, from the byte string
passed to write_escaped in the &str impl of write_to: backslash,
backtick, asterisk, underscore, braces, brackets, parens, hash, plus,
minus, dot, bang. -/
def reserved : List Char :=
  ['\\', backtick, '*', '_', '{', '}', '[', ']', '(', ')', '#', '+', '-', '.', '!']

/-- Model of Rust Iterator::position: index of the first element
satisfying the predicate. -/
def position (p : Char → Bool) : List Char → Option Nat
  | [] => none
  | c :: rest => if p c then some 0 else (position p rest).map (· + 1)

theorem position_lt_length {p : Char → Bool} :
    ∀ {l : List Char} {i : Nat}, position p l = some i → i < l.length := by
  intro l
  induction l with
  | nil => intro i h; simp [position] at h
  | cons c rest ih =>
    intro i h
    simp only [position] at h
    by_cases hc : p c
    · simp [hc] at h
      simp [List.length_cons]
      omega
    · simp [hc] at h
      obtain ⟨j, hj, rfl⟩ := h
      have := ih hj
      simp [List.length_cons]
      omega

/-- Loop of fn write_line_prefixed for a present line prefix: find the
next newline, write the data through it (newline included), write the
prefix, continue with the remainder. -/
def write_line_prefixed_go (data pfx : List Char) : List Char :=
  match _h : position (fun x => x == '\n') data with
  | none => data
  | some i =>
      data.take (i + 1) ++ pfx ++ write_line_prefixed_go (data.drop (i + 1)) pfx
termination_by data.length
decreasing_by
  have := position_lt_length _h
  simp
  omega

/-- fn write_line_prefixed: with no prefix write the data verbatim,
otherwise run the newline-splitting loop. -/
def write_line_prefixed (data : List Char) (lp : Option (List Char)) : List Char :=
  match lp with
  | none => data
  | some p => write_line_prefixed_go data p

/-- Modelled from the spec's words, for comparison with the code: the
prefix is inserted immediately after every newline character, all other
characters are kept as they are, and nothing is inserted before the
first line. -/
def prefix_spec (p : List Char) : List Char → List Char
  | [] => []
  | c :: rest => (if c = '\n' then c :: p else [c]) ++ prefix_spec p rest

/-- Modelled from the spec's words, for comparison with the code: under
Normal escaping every reserved character is preceded by exactly one
backslash and all other characters are emitted unchanged. -/
def escape_spec : List Char → List Char
  | [] => []
  | c :: rest => (if c ∈ reserved then ['\\', c] else [c]) ++ escape_spec rest

theorem write_line_prefixed_go_eq (data p : List Char) :
    write_line_prefixed_go data p =
      match position (fun x => x == '\n') data with
      | none => data
      | some i =>
          data.take (i + 1) ++ p ++ write_line_prefixed_go (data.drop (i + 1)) p := by
  conv_lhs => unfold write_line_prefixed_go
  split
  next h => rw [h]
  next i h => rw [h]

theorem write_line_prefixed_go_nil (p : List Char) :
    write_line_prefixed_go [] p = [] := by
  rw [write_line_prefixed_go_eq]
  simp [position]

theorem write_line_prefixed_go_cons_nl (rest p : List Char) :
    write_line_prefixed_go ('\n' :: rest) p =
      '\n' :: (p ++ write_line_prefixed_go rest p) := by
  rw [write_line_prefixed_go_eq]
  simp [position]

theorem write_line_prefixed_go_cons (c : Char) (rest p : List Char) (hc : ¬ c = '\n') :
    write_line_prefixed_go (c :: rest) p = c :: write_line_prefixed_go rest p := by
  rw [write_line_prefixed_go_eq, write_line_prefixed_go_eq]
  simp only [position, beq_iff_eq, hc, if_false]
  cases hpos : position (fun x => x == '\n') rest with
  | none => simp
  | some i => simp [List.take_succ_cons, List.drop_succ_cons]

/-- The prefix-insertion loop of the code computes exactly the
spec-shaped per-character insertion. -/
theorem write_line_prefixed_go_spec (data p : List Char) :
    write_line_prefixed_go data p = prefix_spec p data := by
  induction data with
  | nil => rw [write_line_prefixed_go_nil]; rfl
  | cons c rest ih =>
    by_cases hc : c = '\n'
    · subst hc
      rw [write_line_prefixed_go_cons_nl, ih]
      simp [prefix_spec]
    · rw [write_line_prefixed_go_cons c rest p hc, ih]
      simp [prefix_spec, hc]

theorem write_line_prefixed_none (data : List Char) :
    write_line_prefixed data none = data := rfl

theorem write_line_prefixed_some (data p : List Char) :
    write_line_prefixed data (some p) = prefix_spec p data :=
  write_line_prefixed_go_spec data p

theorem prefix_spec_append (p a b : List Char) :
    prefix_spec p (a ++ b) = prefix_spec p a ++ prefix_spec p b := by
  induction a with
  | nil => rfl
  | cons c rest ih => simp [prefix_spec, ih]

theorem write_line_prefixed_append (a b : List Char) (lp : Option (List Char)) :
    write_line_prefixed (a ++ b) lp =
      write_line_prefixed a lp ++ write_line_prefixed b lp := by
  cases lp with
  | none => rfl
  | some p => simp [write_line_prefixed_some, prefix_spec_append]

theorem write_line_prefixed_nil (lp : Option (List Char)) :
    write_line_prefixed [] lp = [] := by
  cases lp with
  | none => rfl
  | some p => simp [write_line_prefixed_some, prefix_spec]

theorem write_line_prefixed_single (c : Char) (hc : ¬ c = '\n') (lp : Option (List Char)) :
    write_line_prefixed [c] lp = [c] := by
  cases lp with
  | none => rfl
  | some p => simp [write_line_prefixed_some, prefix_spec, hc]

/-- fn write_escaped: find the next character of the escape set, write
everything before it (through the line-prefix rewriter), write a raw
backslash, write the character itself, continue after it. -/
def write_escaped (data escape : List Char) (lp : Option (List Char)) : List Char :=
  match _h : position (fun x => escape.contains x) data with
  | none => write_line_prefixed data lp
  | some i =>
      write_line_prefixed (data.take i) lp ++ ['\\'] ++
        write_line_prefixed ((data.drop i).take 1) lp ++
        write_escaped (data.drop (i + 1)) escape lp
termination_by data.length
decreasing_by
  have := position_lt_length _h
  simp
  omega

theorem write_escaped_eq (data escape : List Char) (lp : Option (List Char)) :
    write_escaped data escape lp =
      match position (fun x => escape.contains x) data with
      | none => write_line_prefixed data lp
      | some i =>
          write_line_prefixed (data.take i) lp ++ ['\\'] ++
            write_line_prefixed ((data.drop i).take 1) lp ++
            write_escaped (data.drop (i + 1)) escape lp := by
  conv_lhs => unfold write_escaped
  split
  next h => rw [h]
  next i h => rw [h]

theorem write_escaped_nil (escape : List Char) (lp : Option (List Char)) :
    write_escaped [] escape lp = [] := by
  rw [write_escaped_eq]
  simp [position, write_line_prefixed_nil]

theorem write_escaped_cons_hit (c : Char) (rest escape : List Char)
    (lp : Option (List Char)) (hc : escape.contains c = true) :
    write_escaped (c :: rest) escape lp =
      ['\\'] ++ write_line_prefixed [c] lp ++ write_escaped rest escape lp := by
  have hmem : c ∈ escape := by simpa using hc
  rw [write_escaped_eq]
  simp [position, hmem, write_line_prefixed_nil]

theorem write_escaped_cons_miss (c : Char) (rest escape : List Char)
    (lp : Option (List Char)) (hc : escape.contains c = false) :
    write_escaped (c :: rest) escape lp =
      write_line_prefixed [c] lp ++ write_escaped rest escape lp := by
  rw [write_escaped_eq, write_escaped_eq]
  simp only [position, hc, Bool.false_eq_true, if_false]
  cases hpos : position (fun x => escape.contains x) rest with
  | none =>
      simp only [hpos, Option.map_none']
      rw [show (c :: rest) = [c] ++ rest by rfl, write_line_prefixed_append]
  | some i =>
      simp only [hpos, Option.map_some']
      rw [show ((c :: rest).take (i + 1)) = [c] ++ rest.take i by
            simp [List.take_succ_cons],
          write_line_prefixed_append]
      simp [List.take_succ_cons, List.drop_succ_cons, List.append_assoc]

theorem reserved_no_newline {c : Char} (hc : reserved.contains c = true) : ¬ c = '\n' := by
  intro h
  subst h
  exact absurd hc (by decide)

/-- write_escaped with the reserved set is line-prefix rewriting applied
to the spec-shaped escaped text. -/
theorem write_escaped_reserved (data : List Char) (lp : Option (List Char)) :
    write_escaped data reserved lp = write_line_prefixed (escape_spec data) lp := by
  induction data with
  | nil => rw [write_escaped_nil, show escape_spec [] = [] from rfl, write_line_prefixed_nil]
  | cons c rest ih =>
    by_cases hc : reserved.contains c = true
    · rw [write_escaped_cons_hit c rest reserved lp hc, ih]
      have hmem : c ∈ reserved := by
        simpa using hc
      have hnl : ¬ c = '\n' := reserved_no_newline hc
      have hbs : ¬ '\\' = '\n' := by decide
      rw [show escape_spec (c :: rest) = ['\\'] ++ [c] ++ escape_spec rest by
            simp [escape_spec, hmem]]
      rw [write_line_prefixed_append, write_line_prefixed_append,
        write_line_prefixed_single '\\' hbs lp, write_line_prefixed_single c hnl lp]
    · have hc2 : reserved.contains c = false := by
        cases h : reserved.contains c with
        | true => exact absurd h hc
        | false => rfl
      rw [write_escaped_cons_miss c rest reserved lp hc2, ih]
      have hmem : ¬ c ∈ reserved := by
        intro h
        exact hc (by simpa using h)
      rw [show escape_spec (c :: rest) = [c] ++ escape_spec rest by
            simp [escape_spec, hmem]]
      rw [write_line_prefixed_append]

/-- Loop of the &str impl of count_max_streak: max starts at 0, the
current run starts at the incoming carry; a matching character extends
the current run, any other character folds the current run into the max
and resets it. -/
def streak_loop (char : Char) : List Char → Nat → Nat → Nat × Nat
  | [], mx, current => (mx, current)
  | c :: rest, mx, current =>
      if c == char then streak_loop char rest mx (current + 1)
      else streak_loop char rest (if current > mx then current else mx) 0

/-- count_max_streak of the &str impl: returns (longest closed run,
run still open at the end). -/
def count_max_streak_str (char : Char) (carry : Nat) (s : List Char) : Nat × Nat :=
  streak_loop char s 0 carry

/-- Backtick fence size of a code span, from the code branch of the
&RichText impl of write_to: ticks_needed += 1 + carry. -/
def ticks_needed (text : List Char) : Nat :=
  let r := count_max_streak_str backtick 0 text
  r.1 + 1 + r.2

/-- Core of the &str impl of write_to (before the top-level terminator):
escape under Normal mode, emit verbatim under InlineCode mode. -/
def str_core (s : List Char) (escape : Escaping) (lp : Option (List Char)) : List Char :=
  match escape with
  | .Normal => write_escaped s reserved lp
  | .InlineCode => s

/-- Header-cell loop of the GFM table serializer: the cell of index 0
opens thead and tr, every cell writes its th. -/
def th_cells : Nat → List (List Char) → List Char
  | _, [] => []
  | k, c :: rest =>
      (if k == 0 then "<thead><tr><th>".toList ++ c ++ "</th>".toList
       else "<th>".toList ++ c ++ "</th>".toList) ++ th_cells (k + 1) rest

/-- Row-cell loop of the GFM table serializer: the cell of index 0
opens the tr, a later cell writes its td and closes the tr when it is
the last cell of the row. -/
def td_cells (len : Nat) : Nat → List (List Char) → List Char
  | _, [] => []
  | r, c :: rest =>
      (if r == 0 then "<tr><td>".toList ++ c ++ "</td>".toList
       else "<td>".toList ++ c ++ "</td>".toList ++
         (if len - 1 == r then "</tr>".toList else [])) ++ td_cells len (r + 1) rest

/-- Outer row loop of the GFM table serializer. -/
def rows_html : List (List (List Char)) → List Char
  | [] => []
  | row :: rest => td_cells row.length 0 row ++ rows_html rest

/-- Whole GFM table body, from the gfm branch of the &Table impl of
write_to. -/
def table_html (columns : List (List Char)) (rows : List (List (List Char))) : List Char :=
  "<table>".toList ++ th_cells 0 columns ++ "</tr></thead><tbody>".toList ++
    rows_html rows ++ "</tbody></table>".toList

/-- Struct RichText: a borrowed text span with three style flags. -/
structure RichText where
  bold : Bool
  italic : Bool
  code : Bool
  text : List Char

/-- The document node tree.  One constructor per Rust element type that
implements MarkdownWritable (plain &str, Paragraph, Heading, Table,
Link, RichText, List, Quote). -/
inductive Node where
  | str (s : List Char)
  | paragraph (children : List Node)
  | heading (level : Nat) (children : List Node)
  | table (gfm : Bool) (columns : List (List Char)) (rows : List (List (List Char)))
  | link (children : List Node) (address : List Char)
  | rich (r : RichText)
  | list (title : List Node) (items : List Node) (numbered : Bool)
  | quote (children : List Node)

/-- The prefix Vec built by the Quote and List impls: copy of the
caller's line prefix when present, empty otherwise. -/
def pfx_of (lp : Option (List Char)) : List Char :=
  match lp with
  | none => []
  | some q => q

mutual

/-- write_to of each MarkdownWritable impl.  `none` models a panic
(only the inner-heading assertion can raise one during writing). -/
def write_to (n : Node) (inner : Bool) (escape : Escaping) (lp : Option (List Char)) :
    Option (List Char) :=
  match n with
  | .str s =>
      some (str_core s escape lp ++
        if inner then [] else write_line_prefixed ['\n', '\n'] lp)
  | .paragraph children =>
      (write_list children escape lp).map
        (fun body => body ++ if inner then [] else write_line_prefixed ['\n', '\n'] lp)
  | .heading level children =>
      if inner then none
      else
        (write_list children .Normal lp).map
          (fun body => List.replicate level '#' ++ [' '] ++ body ++
            write_line_prefixed ['\n'] lp)
  | .table gfm columns rows =>
      some ((if gfm then table_html columns rows else []) ++ write_line_prefixed ['\n'] lp)
  | .link children address =>
      (write_list children escape lp).map
        (fun body =>
          ['['] ++ body ++ [']', '('] ++ str_core address escape lp ++ [')'] ++
            if inner then [] else write_line_prefixed ['\n'] lp)
  | .rich r =>
      let symbol :=
        (if r.bold then ['*', '*'] else []) ++
        (if r.italic then ['*'] else []) ++
        (if r.code then List.replicate (ticks_needed r.text) backtick ++ [' '] else [])
      let escape2 := if r.code then Escaping.InlineCode else escape
      some (symbol ++ str_core r.text escape2 lp ++ symbol.reverse ++
        if inner then [] else write_line_prefixed ['\n', '\n'] lp)
  | .list title items numbered =>
      (write_list title escape lp).bind (fun t =>
        (write_items items numbered escape (pfx_of lp ++ [' ', ' ', ' '])).map
          (fun body => t ++ body))
  | .quote children =>
      (write_list children escape (some (pfx_of lp ++ ['>']))).map
        (fun body =>
          (if inner then [] else write_line_prefixed ['\n'] lp) ++ ['>'] ++ body ++
            (if inner then [] else write_line_prefixed ['\n', '\n'] lp))

/-- Child loop shared by the container impls of write_to: every child is
written with inner = true and the outputs are concatenated. -/
def write_list (ns : List Node) (escape : Escaping) (lp : Option (List Char)) :
    Option (List Char) :=
  match ns with
  | [] => some []
  | n :: rest =>
      (write_to n true escape lp).bind (fun h =>
        (write_list rest escape lp).map (fun t => h ++ t))

/-- Item loop of the &List impl of write_to: before each item the marker
run (newline then 1. or *) goes through the line-prefix rewriter with
the extended prefix, then the item is written under that prefix. -/
def write_items (ns : List Node) (numbered : Bool) (escape : Escaping) (pfx : List Char) :
    Option (List Char) :=
  match ns with
  | [] => some []
  | n :: rest =>
      (write_to n true escape (some pfx)).bind (fun h =>
        (write_items rest numbered escape pfx).map (fun t =>
          write_line_prefixed (if numbered then ['\n', '1', '.', ' '] else ['\n', '*', ' '])
              (some pfx) ++ h ++ t))

end

mutual

/-- count_max_streak of each MarkdownWritable impl. -/
def count_max_streak (char : Char) (carry : Nat) (n : Node) : Nat × Nat :=
  match n with
  | .str s => count_max_streak_str char carry s
  | .paragraph children =>
      let r := streak_sum char carry children
      (r.1 + r.2, 0)
  | .heading _ children => streak_sum char 0 children
  | .table _ _ _ => (0, 0)
  | .link children address =>
      let a := count_max_streak_str char 0 address
      let addr := a.1 + a.2
      let r := streak_sum char 0 children
      let count := r.1 + r.2
      if count > addr then (count, 0) else (addr, 0)
  | .rich r =>
      let a := count_max_streak_str char 0 r.text
      (a.1 + a.2, 0)
  | .list _ items _ => (streak_max char 0 items, 0)
  | .quote children => (streak_max char 0 children, 0)

/-- Summing child loop of the Paragraph, Heading and Link impls of
count_max_streak: counts are added up and the carry is threaded through
the children left to right. -/
def streak_sum (char : Char) (carry : Nat) (ns : List Node) : Nat × Nat :=
  match ns with
  | [] => (0, carry)
  | n :: rest =>
      let r := count_max_streak char carry n
      let s := streak_sum char r.2 rest
      (r.1 + s.1, s.2)

/-- Maximum child loop of the List and Quote impls of count_max_streak:
every child is counted with carry 0 and only the largest count is kept. -/
def streak_max (char : Char) (acc : Nat) (ns : List Node) : Nat :=
  match ns with
  | [] => acc
  | n :: rest =>
      let c := (count_max_streak char 0 n).1
      streak_max char (if c > acc then c else acc) rest

end

/-- Heading::new: asserts that the level lies in 1..=6, then builds an
empty heading; `none` models the assertion failure. -/
def heading_new (level : Nat) : Option Node :=
  if 0 < level ∧ level ≤ 6 then some (.heading level []) else none

/-- Markdown::write, the top-level render entry point: inner = false,
Normal escaping, no line prefix. -/
def render (n : Node) : Option (List Char) :=
  write_to n false .Normal none

/-- AsMarkdown::heading of the Link impls: Heading::new(level).append(self);
it does not panic on its own, only Heading::new can. -/
def link_as_heading (children : List Node) (address : List Char) (level : Nat) :
    Option Node :=
  (heading_new level).map (fun h =>
    match h with
    | .heading l hcs => .heading l (hcs ++ [.link children address])
    | other => other)

/-- AsMarkdown::link_to of the Link impls: unconditional panic
(a link cannot contain another link). -/
def link_as_link_to (_children : List Node) (_address _target : List Char) :
    Option Node :=
  none

/-- AsMarkdown::bold of the Link impls: unconditional panic. -/
def link_as_bold (_children : List Node) (_address : List Char) : Option RichText :=
  none

/-- AsMarkdown::italic of the Link impls: unconditional panic. -/
def link_as_italic (_children : List Node) (_address : List Char) : Option RichText :=
  none

/-- AsMarkdown::code of the Link impls: unconditional panic. -/
def link_as_code (_children : List Node) (_address : List Char) : Option RichText :=
  none

/-- AsMarkdown::heading of the List impl: unconditional panic. -/
def list_as_heading (_title _items : List Node) (_numbered : Bool) (_level : Nat) :
    Option Node :=
  none

/-- AsMarkdown::link_to of the List impl: unconditional panic. -/
def list_as_link_to (_title _items : List Node) (_numbered : Bool) (_target : List Char) :
    Option Node :=
  none

/-- AsMarkdown::bold of the List impl: unconditional panic. -/
def list_as_bold (_title _items : List Node) (_numbered : Bool) : Option RichText :=
  none

/-- AsMarkdown::italic of the List impl: unconditional panic. -/
def list_as_italic (_title _items : List Node) (_numbered : Bool) : Option RichText :=
  none

/-- AsMarkdown::code of the List impl: unconditional panic. -/
def list_as_code (_title _items : List Node) (_numbered : Bool) : Option RichText :=
  none

/-- AsMarkdown::bold of the impl for &RichText: the source builds a
mutated clone but then returns *self* unchanged. -/
def rich_ref_bold (self : RichText) : RichText :=
  let _clone : RichText := { self with bold := true }
  self

/-- AsMarkdown::italic of the impl for &RichText: the source builds a
mutated clone but then returns *self* unchanged. -/
def rich_ref_italic (self : RichText) : RichText :=
  let _clone : RichText := { self with italic := true }
  self

/-- AsMarkdown::code of the impl for &RichText: the source builds a
mutated clone but then returns *self* unchanged. -/
def rich_ref_code (self : RichText) : RichText :=
  let _clone : RichText := { self with code := true }
  self

/-- AsMarkdown::bold of the by-value impl for RichText: sets the flag. -/
def rich_val_bold (self : RichText) : RichText :=
  { self with bold := true }

/-- AsMarkdown::italic of the by-value impl for RichText: sets the flag. -/
def rich_val_italic (self : RichText) : RichText :=
  { self with italic := true }

/-- AsMarkdown::code of the by-value impl for RichText: sets the flag. -/
def rich_val_code (self : RichText) : RichText :=
  { self with code := true }

/-- Modelled from the claim's words, for comparison with the item loop
of the &List impl: every item is preceded by a newline, the extended
prefix and one fixed marker, and the item itself is rendered under the
extended prefix. -/
def items_spec (marker : List Char) (escape : Escaping) (pfx : List Char) :
    List Node → Option (List Char)
  | [] => some []
  | n :: rest =>
      (write_to n true escape (some pfx)).bind (fun h =>
        (items_spec marker escape pfx rest).map (fun t =>
          ('\n' :: (pfx ++ marker)) ++ h ++ t))

/-- Modelled from the spec's words, for comparison with the row loop of
the GFM table serializer: one td element per cell. -/
def cells_tds : List (List Char) → List Char
  | [] => []
  | c :: rest => "<td>".toList ++ c ++ "</td>".toList ++ cells_tds rest

theorem streak_loop_fst_ge (char : Char) :
    ∀ (s : List Char) (mx cur : Nat), mx ≤ (streak_loop char s mx cur).1 := by
  intro s
  induction s with
  | nil => intro mx cur; exact Nat.le_refl mx
  | cons c rest ih =>
    intro mx cur
    by_cases hc : (c == char) = true
    · simpa [streak_loop, hc] using ih mx (cur + 1)
    · have h2 := ih (if cur > mx then cur else mx) 0
      have h3 : mx ≤ (if cur > mx then cur else mx) := by
        split
        · omega
        · exact Nat.le_refl mx
      simp only [streak_loop, hc, if_false]
      exact Nat.le_trans h3 h2

theorem streak_loop_cur_le (char : Char) :
    ∀ (s : List Char) (mx cur : Nat),
      cur ≤ (streak_loop char s mx cur).1 + (streak_loop char s mx cur).2 := by
  intro s
  induction s with
  | nil => intro mx cur; simp [streak_loop]
  | cons c rest ih =>
    intro mx cur
    by_cases hc : (c == char) = true
    · have := ih mx (cur + 1)
      simp only [streak_loop, hc, if_true]
      omega
    · have hcur : cur ≤ (if cur > mx then cur else mx) := by
        split
        · exact Nat.le_refl cur
        · omega
      have := streak_loop_fst_ge char rest (if cur > mx then cur else mx) 0
      have hc2 : (c == char) = false := by simpa using hc
      simp only [streak_loop, hc2, Bool.false_eq_true, if_false]
      omega

theorem streak_loop_prefix (char : Char) :
    ∀ (k : Nat) (s : List Char) (mx cur : Nat),
      List.replicate k char <+: s →
      cur + k ≤ (streak_loop char s mx cur).1 + (streak_loop char s mx cur).2 := by
  intro k
  induction k with
  | zero =>
    intro s mx cur _
    simpa using streak_loop_cur_le char s mx cur
  | succ k ih =>
    intro s mx cur hpre
    rw [List.replicate_succ] at hpre
    cases s with
    | nil => simp [List.prefix_nil] at hpre
    | cons c rest =>
      rw [List.cons_prefix_cons] at hpre
      obtain ⟨rfl, hpre2⟩ := hpre
      have := ih rest mx (cur + 1) hpre2
      simp only [streak_loop, beq_self_eq_true, if_true]
      omega

theorem streak_loop_infix (char : Char) :
    ∀ (s : List Char) (mx cur n : Nat),
      List.replicate n char <:+: s →
      n ≤ (streak_loop char s mx cur).1 + (streak_loop char s mx cur).2 := by
  intro s
  induction s with
  | nil =>
    intro mx cur n h
    have := h.sublist.length_le
    simp at this
    simp [this, streak_loop]
  | cons c rest ih =>
    intro mx cur n h
    rw [List.infix_cons_iff] at h
    cases h with
    | inl hpre =>
      cases n with
      | zero => simp
      | succ k =>
        rw [List.replicate_succ, List.cons_prefix_cons] at hpre
        obtain ⟨rfl, hpre2⟩ := hpre
        have := streak_loop_prefix char k rest mx (cur + 1) hpre2
        simp only [streak_loop, beq_self_eq_true, if_true]
        omega
    | inr hinf =>
      by_cases hc : (c == char) = true
      · simpa [streak_loop, hc] using ih mx (cur + 1) n hinf
      · simpa [streak_loop, hc] using ih (if cur > mx then cur else mx) 0 n hinf

/-- Every contiguous backtick run of the text is strictly shorter than
the computed fence. -/
theorem ticks_needed_gt_runs (text : List Char) (n : Nat)
    (h : List.replicate n backtick <:+: text) : n < ticks_needed text := by
  have := streak_loop_infix backtick text 0 0 n h
  show n < (streak_loop backtick text 0 0).1 + 1 + (streak_loop backtick text 0 0).2
  omega

theorem streak_loop_not_mem (char : Char) :
    ∀ (s : List Char) (mx : Nat), ¬ char ∈ s → streak_loop char s mx 0 = (mx, 0) := by
  intro s
  induction s with
  | nil => intro mx _; rfl
  | cons c rest ih =>
    intro mx h
    have hc : ¬ (c == char) = true := by
      simp only [beq_iff_eq]
      intro hcc
      exact h (hcc ▸ List.mem_cons_self c rest)
    have hrest : ¬ char ∈ rest := fun hm => h (List.mem_cons_of_mem c hm)
    simp only [streak_loop, hc, if_false]
    simpa using ih mx hrest

/-- A text without backticks gets a fence of length one. -/
theorem ticks_needed_no_backtick (text : List Char) (h : ¬ backtick ∈ text) :
    ticks_needed text = 1 := by
  show (streak_loop backtick text 0 0).1 + 1 + (streak_loop backtick text 0 0).2 = 1
  rw [streak_loop_not_mem backtick text 0 h]
  rfl

/-- C1: writing a string under Normal escaping emits every reserved
character preceded by exactly one backslash and every other character
unchanged (the output is the per-character escape_spec image, sent
through the line-prefix rewriter; with no line prefix it is exactly the
escape_spec image); under InlineCode the string is emitted verbatim for
every line prefix, regardless of reserved-character content. -/
theorem str_write_to_escaping (s : List Char) :
    (∀ lp, write_to (.str s) true .Normal lp =
      some (write_line_prefixed (escape_spec s) lp)) ∧
    write_to (.str s) true .Normal none = some (escape_spec s) ∧
    (∀ lp, write_to (.str s) true .InlineCode lp = some s) := by
  refine ⟨fun lp => ?_, ?_, fun lp => ?_⟩ <;>
    simp [write_to, str_core, write_escaped_reserved, write_line_prefixed_none]

/-- C4: write_line_prefixed writes the data verbatim when the prefix is
absent; otherwise it inserts the prefix immediately after every newline
character (the newline itself kept before the prefix) and keeps every
other character, so the first line of the data is never prefixed. -/
theorem write_line_prefixed_contract (data p : List Char) :
    write_line_prefixed data none = data ∧
    write_line_prefixed data (some p) = prefix_spec p data :=
  ⟨write_line_prefixed_none data, write_line_prefixed_some data p⟩

/-- C10: the style setters of the AsMarkdown impl for &RichText return
the receiver with all three flags unchanged (the requested flag is not
set), while the by-value impl for RichText returns the receiver with the
requested flag set. -/
theorem richtext_ref_setters_noop (r : RichText) :
    rich_ref_bold r = r ∧ rich_ref_italic r = r ∧ rich_ref_code r = r ∧
    rich_val_bold r = { r with bold := true } ∧
    rich_val_italic r = { r with italic := true } ∧
    rich_val_code r = { r with code := true } :=
  ⟨rfl, rfl, rfl, rfl, rfl, rfl⟩

/-- C7: Heading construction fails fatally exactly for levels outside
1-6; for a level in 1-6 a top-level Heading renders as level hash
characters, one space, the children written inline under Normal
escaping, and a single newline. -/
theorem heading_contract (level : Nat) (children : List Node) (escape : Escaping)
    (_h1 : 1 ≤ level) (_h2 : level ≤ 6) :
    (∀ l, heading_new l = none ↔ (l = 0 ∨ 7 ≤ l)) ∧
    write_to (.heading level children) false escape none =
      (write_list children .Normal none).map
        (fun body => List.replicate level '#' ++ [' '] ++ body ++ ['\n']) := by
  constructor
  · intro l
    unfold heading_new
    split
    next hin => simp; omega
    next hin => simp; omega
  · simp [write_to, write_line_prefixed_none]

theorem heading_contract_witness :
    (∀ l, heading_new l = none ↔ (l = 0 ∨ 7 ≤ l)) ∧
    write_to (.heading 3 [.str ['h', 'i']]) false .Normal none =
      (write_list [.str ['h', 'i']] .Normal none).map
        (fun body => List.replicate 3 '#' ++ [' '] ++ body ++ ['\n']) :=
  heading_contract 3 [.str ['h', 'i']] .Normal (by decide) (by decide)

/-- C8 counterexample: the claim says a heading conversion applied
directly to a Link wrapper raises a fatal error, but
AsMarkdown::heading of the Link impls succeeds and wraps the link in a
new Heading. -/
theorem link_as_heading_succeeds :
    link_as_heading [] [] 2 = some (.heading 2 [.link [] []]) := rfl

/-- C8 (amended): rendering a Heading as an inner element fails; link_to,
bold, italic and code applied to a Link fail; converting a List to a
Heading, Link or styled run fails; but the heading conversion on a Link
succeeds for every valid level, producing a Heading that contains the
Link. -/
theorem invalid_compositions (children title items : List Node)
    (address target : List Char) (numbered : Bool) (escape : Escaping)
    (lp : Option (List Char)) (level : Nat) (hl1 : 1 ≤ level) (hl2 : level ≤ 6) :
    (∀ lv cs, write_to (.heading lv cs) true escape lp = none) ∧
    link_as_link_to children address target = none ∧
    link_as_bold children address = none ∧
    link_as_italic children address = none ∧
    link_as_code children address = none ∧
    list_as_heading title items numbered level = none ∧
    list_as_link_to title items numbered target = none ∧
    list_as_bold title items numbered = none ∧
    list_as_italic title items numbered = none ∧
    list_as_code title items numbered = none ∧
    link_as_heading children address level =
      some (.heading level [.link children address]) := by
  refine ⟨fun lv cs => ?_, rfl, rfl, rfl, rfl, rfl, rfl, rfl, rfl, rfl, ?_⟩
  · simp [write_to]
  · unfold link_as_heading heading_new
    rw [if_pos ⟨hl1, hl2⟩]
    simp

theorem invalid_compositions_witness :
    (∀ lv cs, write_to (.heading lv cs) true .Normal none = none) ∧
    link_as_link_to [] [] [] = none ∧
    link_as_bold [] [] = none ∧
    link_as_italic [] [] = none ∧
    link_as_code [] [] = none ∧
    list_as_heading [] [] true 2 = none ∧
    list_as_link_to [] [] true [] = none ∧
    list_as_bold [] [] true = none ∧
    list_as_italic [] [] true = none ∧
    list_as_code [] [] true = none ∧
    link_as_heading [] [] 2 = some (.heading 2 [.link [] []]) :=
  invalid_compositions [] [] [] [] [] true .Normal none 2 (by decide) (by decide)

/-- The item loop of the &List impl equals the claim-shaped item
serialization: the marker run sent through the line-prefix rewriter is a
newline, the extended prefix, then the fixed marker. -/
theorem write_items_eq_items_spec (items : List Node) (numbered : Bool)
    (escape : Escaping) (pfx : List Char) :
    write_items items numbered escape pfx =
      items_spec (if numbered then ['1', '.', ' '] else ['*', ' ']) escape pfx items := by
  induction items with
  | nil => cases numbered <;> rfl
  | cons n rest ih =>
    cases numbered <;>
      simp [write_items, items_spec, ih, write_line_prefixed_some, prefix_spec]

/-- C5: a top-level Quote writes a leading newline, a literal quote
marker, its children under the caller's prefix extended by the quote
marker, and a blank-line terminator; consequently in the concrete nested
example every line of the inner paragraph is prefixed. -/
theorem quote_contract (children : List Node) (escape : Escaping)
    (lp : Option (List Char)) :
    write_to (.quote children) false escape lp =
      (write_list children escape (some (pfx_of lp ++ ['>']))).map
        (fun body =>
          write_line_prefixed ['\n'] lp ++ ['>'] ++ body ++
            write_line_prefixed ['\n', '\n'] lp) ∧
    write_to (.quote [.paragraph [.str ['a', '\n', 'b']]]) false .Normal none =
      some ['\n', '>', 'a', '\n', '>', 'b', '\n', '\n'] := by
  constructor
  · simp [write_to]
  · simp [write_to, write_list, str_core, pfx_of, write_escaped_reserved,
      write_line_prefixed_some, write_line_prefixed_none]
    decide

/-- C6: a List writes its title nodes first inline, then each item
preceded by a newline, the three-space-extended prefix and one fixed
marker (the same marker for every item: 1.-space when numbered, *-space
otherwise), the item itself rendered under the extended prefix; the
concrete numbered three-item list shows the static 1. marker repeated. -/
theorem list_contract (title items : List Node) (inner numbered : Bool)
    (escape : Escaping) (lp : Option (List Char)) :
    write_to (.list title items numbered) inner escape lp =
      (write_list title escape lp).bind (fun t =>
        (items_spec (if numbered then ['1', '.', ' '] else ['*', ' ']) escape
            (pfx_of lp ++ [' ', ' ', ' ']) items).map (fun body => t ++ body)) ∧
    write_to (.list [] [.str ['a'], .str ['b'], .str ['c']] true) false .Normal none =
      some ['\n', ' ', ' ', ' ', '1', '.', ' ', 'a',
            '\n', ' ', ' ', ' ', '1', '.', ' ', 'b',
            '\n', ' ', ' ', ' ', '1', '.', ' ', 'c'] := by
  constructor
  · simp [write_to, write_items_eq_items_spec]
  · simp [write_to, write_list, write_items_eq_items_spec, items_spec, str_core,
      pfx_of, write_escaped_reserved, write_line_prefixed_some, write_line_prefixed_none]
    decide

/-- C2 (amended): a code-only RichText is fenced by a backtick run of
the length computed from count_max_streak (longest closed run plus
trailing run plus one) with a single space inside each fence delimiter
and the text emitted under InlineCode escaping; that fence strictly
exceeds every contiguous backtick run of the text, a trailing run
included, and a text without backticks gets a fence of length one. -/
theorem code_fence_contract (text : List Char) (escape : Escaping)
    (lp : Option (List Char)) :
    write_to (.rich ⟨false, false, true, text⟩) true escape lp =
      some (List.replicate (ticks_needed text) backtick ++ [' '] ++ text ++
        [' '] ++ List.replicate (ticks_needed text) backtick) ∧
    (∀ n, List.replicate n backtick <:+: text → n < ticks_needed text) ∧
    (¬ backtick ∈ text → ticks_needed text = 1) := by
  refine ⟨?_, fun n h => ticks_needed_gt_runs text n h,
    fun h => ticks_needed_no_backtick text h⟩
  simp [write_to, str_core, List.reverse_append, List.reverse_replicate]

theorem code_fence_contract_witness :
    write_to (.rich ⟨false, false, true, ['x', backtick, 'y']⟩) true .Normal none =
      some (List.replicate (ticks_needed ['x', backtick, 'y']) backtick ++ [' '] ++
        ['x', backtick, 'y'] ++ [' '] ++
        List.replicate (ticks_needed ['x', backtick, 'y']) backtick) ∧
    1 < ticks_needed ['x', backtick, 'y'] :=
  ⟨(code_fence_contract ['x', backtick, 'y'] .Normal none).1,
   (code_fence_contract ['x', backtick, 'y'] .Normal none).2.1 1 (by decide)⟩

/-- C2 counterexample: for the text backtick-a-backtick the code sizes
the fence at 3 backticks although the longest contiguous backtick run
has length 1 (no run of length 2 occurs), so the fence length is not
longest-run-plus-one as claimed. -/
theorem code_fence_not_longest_plus_one :
    ticks_needed [backtick, 'a', backtick] = 3 ∧
    ¬ (List.replicate 2 backtick <:+: [backtick, 'a', backtick]) := by
  constructor
  · decide
  · decide

/-- C3 (code bug): the Paragraph impl of count_max_streak sums the
children's maxima instead of taking their maximum and always reports
trailing 0.  For children consisting of backtick-backtick-a and
backtick-backtick-b it returns (4, 0) although each child's own count is
(2, 0) and the concatenated text has no backtick run of length 3; for
the single child backtick-backtick the still-open trailing run is folded
into the count and trailing is reported as 0 instead of 2. -/
theorem paragraph_streak_sums_not_max :
    count_max_streak backtick 0
        (.paragraph [.str [backtick, backtick, 'a'], .str [backtick, backtick, 'b']]) =
      (4, 0) ∧
    count_max_streak backtick 0 (.str [backtick, backtick, 'a']) = (2, 0) ∧
    count_max_streak backtick 0 (.str [backtick, backtick, 'b']) = (2, 0) ∧
    ¬ (List.replicate 3 backtick <:+:
        [backtick, backtick, 'a', backtick, backtick, 'b']) ∧
    count_max_streak backtick 0 (.paragraph [.str [backtick, backtick]]) = (2, 0) := by
  refine ⟨by decide, by decide, by decide, by decide, by decide⟩

theorem td_cells_cons (len r : Nat) (c : List Char) (rest : List (List Char)) :
    td_cells len r (c :: rest) =
      (if r == 0 then "<tr><td>".toList ++ c ++ "</td>".toList
       else "<td>".toList ++ c ++ "</td>".toList ++
         (if len - 1 == r then "</tr>".toList else [])) ++ td_cells len (r + 1) rest := rfl

theorem td_cells_tail :
    ∀ (cs : List (List Char)) (r len : Nat), 1 ≤ r → len = r + cs.length → cs ≠ [] →
      td_cells len r cs = cells_tds cs ++ "</tr>".toList := by
  intro cs
  induction cs with
  | nil => intro r len _ _ hne; exact absurd rfl hne
  | cons c rest ih =>
    intro r len hr hlen _
    cases rest with
    | nil =>
      have hr0 : (r == 0) = false := by simp; omega
      have hlast : (len - 1 == r) = true := by
        simp [List.length_cons] at hlen ⊢
        omega
      rw [td_cells_cons]
      simp [td_cells, hr0, hlast, cells_tds]
    | cons c2 rest2 =>
      have hr0 : (r == 0) = false := by simp; omega
      have hlast : (len - 1 == r) = false := by
        simp [List.length_cons] at hlen ⊢
        omega
      have hrec := ih (r + 1) len (by omega)
        (by simp [List.length_cons] at hlen ⊢; omega) (by simp)
      rw [td_cells_cons, hrec]
      simp [hr0, hlast, cells_tds]

set_option maxRecDepth 8192 in
/-- C9 (amended): in a GFM table every row's first cell opens a tr
element; a row with at least two cells is closed after its last cell,
but a single-cell row's tr is left unclosed; the two-column one-row
example renders exactly as given. -/
theorem gfm_table_rows (c0 c1 c : List Char) (cs : List (List Char)) :
    td_cells ((c0 :: c1 :: cs).length) 0 (c0 :: c1 :: cs) =
      "<tr>".toList ++ cells_tds (c0 :: c1 :: cs) ++ "</tr>".toList ∧
    td_cells 1 0 [c] = "<tr><td>".toList ++ c ++ "</td>".toList ∧
    write_to (.table true [['A'], ['B']] [[['x'], ['y']]]) false .Normal none =
      some (("<table><thead><tr><th>A</th><th>B</th></tr></thead>" ++
        "<tbody><tr><td>x</td><td>y</td></tr></tbody></table>\n").toList) := by
  refine ⟨?_, ?_, ?_⟩
  · have hrec := td_cells_tail (c1 :: cs) 1 ((c0 :: c1 :: cs).length)
      (Nat.le_refl 1) (by simp [List.length_cons]; omega) (by simp)
    have hsplit : "<tr><td>".toList = "<tr>".toList ++ "<td>".toList := rfl
    rw [td_cells_cons, hrec, hsplit]
    simp [cells_tds]
  · simp [td_cells, cells_tds]
  · decide

set_option maxRecDepth 8192 in
/-- C9 counterexample: a GFM table whose only row has exactly one cell
leaves that row's tr element unclosed (the output contains no td-closing
tr sequence), refuting the claim that the last cell of every row closes
the tr even for single-cell rows. -/
theorem single_cell_row_unclosed :
    write_to (.table true [['A']] [[['x']]]) false .Normal none =
      some ("<table><thead><tr><th>A</th></tr></thead><tbody><tr><td>x</td></tbody></table>\n".toList) ∧
    ¬ ("</td></tr>".toList <:+:
        "<table><thead><tr><th>A</th></tr></thead><tbody><tr><td>x</td></tbody></table>\n".toList) := by
  constructor
  · decide
  · decide

end MarkdownGen

